import Mathlib

/-!
Shallow embedding of the habit-streak tracker (`streak.py`) and proofs about
its record model: row parsing and serialization (`load_data_db`,
`save_data_db`), the streak computation (`calculate_streak`), the month grid
(`get_days_in_month`, `display_calendar`), and the store mutations performed
by the app (`addHabit`, check-in, and the calendar's entry upsert).

Python strings are modelled as `List Char`, `datetime.date` values as a
`Date` structure of year/month/day naturals, day arithmetic on dates
(`timedelta`) as `Int` day numbers where only ordering and predecessor
matter, and Python dicts as insertion-ordered association lists.
-/

namespace HabitStreak

/-- Calendar date as carried by Python `datetime.date` (year, month, day). -/
structure Date where
  year : Nat
  month : Nat
  day : Nat
deriving DecidableEq

/-- Embedding of `calendar.isleap`: `year % 4 == 0 and (year % 100 != 0 or year % 400 == 0)`. -/
def isleap (y : Nat) : Bool :=
  y % 4 == 0 && (y % 100 != 0 || y % 400 == 0)

/-- Embedding of `get_days_in_month(month_num, year) = calendar.monthrange(year, month_num)[1]`
for months 1..12 (the only arguments the app produces). -/
def get_days_in_month (m y : Nat) : Nat :=
  if m = 2 then (if isleap y then 29 else 28)
  else if m = 4 ∨ m = 6 ∨ m = 9 ∨ m = 11 then 30
  else 31

/-- Validity invariant of a Python `datetime.date` object: the constructor
rejects anything outside these bounds, so every date held by the program
satisfies it. -/
def Date.Valid (d : Date) : Prop :=
  1 ≤ d.year ∧ d.year ≤ 9999 ∧ 1 ≤ d.month ∧ d.month ≤ 12 ∧
    1 ≤ d.day ∧ d.day ≤ get_days_in_month d.month d.year

instance (d : Date) : Decidable d.Valid := by
  unfold Date.Valid
  infer_instance

/-- Decimal digit character, as produced by `strftime` zero-padded fields. -/
def digitChar : Nat → Char
  | 0 => '0'
  | 1 => '1'
  | 2 => '2'
  | 3 => '3'
  | 4 => '4'
  | 5 => '5'
  | 6 => '6'
  | 7 => '7'
  | 8 => '8'
  | 9 => '9'
  | _ => '?'

/-- Numeric value of a digit character. -/
def charVal (c : Char) : Nat := c.toNat - 48

/-- Two-digit zero-padded decimal rendering (`%d`, `%m`). -/
def pad2 (n : Nat) : List Char :=
  [digitChar (n / 10), digitChar (n % 10)]

/-- Four-digit zero-padded decimal rendering (`%Y`). -/
def pad4 (n : Nat) : List Char :=
  [digitChar (n / 1000), digitChar (n / 100 % 10), digitChar (n / 10 % 10), digitChar (n % 10)]

/-- Embedding of `date_obj.strftime('%d/%m/%Y')`. -/
def formatDate (d : Date) : List Char :=
  pad2 d.day ++ '/' :: (pad2 d.month ++ '/' :: pad4 d.year)

/-- Decimal value of a digit string (most significant digit first). -/
def digitsVal (ds : List Char) : Nat :=
  ds.foldl (fun a c => 10 * a + charVal c) 0

/-- Splits a leading digit run followed by a literal slash from a string,
failing when no slash directly follows the digits. -/
def splitSlash (cs : List Char) : Option (List Char × List Char) :=
  match cs.dropWhile Char.isDigit with
  | '/' :: rest => some (cs.takeWhile Char.isDigit, rest)
  | _ => none

/-- Final `%Y` segment of date parsing together with the range checks of the
field patterns and of the `datetime` constructor. -/
def parseYearSeg (ds ms cs3 : List Char) : Option Date :=
  let ys := cs3.takeWhile Char.isDigit
  let r3 := cs3.dropWhile Char.isDigit
  if r3 = [] ∧ 1 ≤ ds.length ∧ ds.length ≤ 2 ∧ 1 ≤ ms.length ∧ ms.length ≤ 2 ∧
      ys.length = 4 ∧ 1 ≤ digitsVal ys ∧ 1 ≤ digitsVal ms ∧ digitsVal ms ≤ 12 ∧
      1 ≤ digitsVal ds ∧ digitsVal ds ≤ get_days_in_month (digitsVal ms) (digitsVal ys)
  then some ⟨digitsVal ys, digitsVal ms, digitsVal ds⟩
  else none

/-- Embedding of `datetime.strptime(s, '%d/%m/%Y').date()` as a total function:
`none` models the `ValueError` the Python call raises on a malformed string.
`%d` and `%m` accept one or two digits with the value ranges enforced by
CPython's `_strptime` patterns, `%Y` requires exactly four digits, the two
separators must be literal slashes with nothing left over, and the
`datetime` constructor additionally requires a positive year and a day that
exists in the given month. -/
def parseDate (cs : List Char) : Option Date :=
  (splitSlash cs).bind fun p1 =>
    (splitSlash p1.2).bind fun p2 =>
      parseYearSeg p1.1 p2.1 p2.2

/-- One stored row, as described by the sheet's header `["Date", "Habit", "Completed"]`. -/
structure Row where
  dateStr : List Char
  habit : List Char
  completedStr : List Char
deriving DecidableEq

/-- Embedding of Python `str(completed)` for a bool. -/
def boolStr (b : Bool) : List Char :=
  if b then String.toList "True" else String.toList "False"

/-- The in-memory store: Python dict `habit name ↦ list of (date, completed)`,
modelled as an insertion-ordered association list. -/
abbrev Habits := List (List Char × List (Date × Bool))

/-- Embedding of the dict update performed per row by `load_data_db`:
`if habit not in habits: habits[habit] = []` followed by
`habits[habit].append(entry)`. -/
def addEntry (hs : Habits) (h : List Char) (e : Date × Bool) : Habits :=
  match hs with
  | [] => [(h, [e])]
  | (k, es) :: t => if k = h then (k, es ++ [e]) :: t else (k, es) :: addEntry t h e

/-- The row loop of `load_data_db`: rows with an empty habit are skipped via
`continue`; a date string `strptime` rejects raises, which aborts the loop —
modelled by returning `none`. The `Completed` cell counts as completed
exactly when it is the literal string `"True"`. -/
def loadAux : List Row → Habits → Option Habits
  | [], hs => some hs
  | r :: rest, hs =>
    if r.habit = [] then loadAux rest hs
    else
      match parseDate r.dateStr with
      | none => none
      | some d => loadAux rest (addEntry hs r.habit (d, r.completedStr == String.toList "True"))

/-- Embedding of `load_data_db`: the whole row loop sits in one `try`, whose
`except` handler returns the empty dict, so a raising row discards
everything already accumulated. -/
def load_data_db (rows : List Row) : Habits :=
  match loadAux rows [] with
  | some hs => hs
  | none => []

/-- One serialized row of `save_data_db`: `[date_obj.strftime('%d/%m/%Y'), habit, str(completed)]`. -/
def rowOf (h : List Char) (e : Date × Bool) : Row :=
  ⟨formatDate e.1, h, boolStr e.2⟩

/-- Embedding of the row-producing nested loop of `save_data_db`: for each
habit in dict order, one row per entry in list order. -/
def save_data_db : Habits → List Row
  | [] => []
  | (h, es) :: t => es.map (rowOf h) ++ save_data_db t

/-- Descending insertion preserving the original order of equal dates, the
building block of `sorted(records, key=lambda x: x[0], reverse=True)`. -/
def insertDesc (p : Int × Bool) : List (Int × Bool) → List (Int × Bool)
  | [] => [p]
  | q :: l => if q.1 ≤ p.1 then p :: q :: l else q :: insertDesc p l

/-- Embedding of `sorted(records, key=lambda x: x[0], reverse=True)` (stable,
descending by date). Dates are `Int` day numbers: only their ordering and
day-predecessor arithmetic matter to `calculate_streak`. -/
def sortDesc : List (Int × Bool) → List (Int × Bool)
  | [] => []
  | p :: l => insertDesc p (sortDesc l)

/-- The loop of `calculate_streak`: the `elif`/`else` arms both `break`, so
the loop continues exactly when the current record is completed and dated
`today - timedelta(days=streak)`. -/
def streakLoop (today : Int) : List (Int × Bool) → Nat → Nat
  | [], s => s
  | p :: rest, s =>
    if p.2 = true ∧ p.1 = today - (s : Int) then streakLoop today rest (s + 1) else s

/-- Embedding of `calculate_streak(records)`, with the `date.today()` value
injected as the `today` parameter. -/
def calculate_streak (today : Int) (records : List (Int × Bool)) : Nat :=
  streakLoop today (sortDesc records) 0

/-- Embedding of the calendar's cell edit (lines 168–169 of `streak.py`):
`habits[name] = [(d, c) for d, c in habits[name] if d != dt]` followed by
`habits[name].append((dt, v))` — the `upsertEntry` operation of the spec. -/
def upsertEntry (es : List (Date × Bool)) (dt : Date) (v : Bool) : List (Date × Bool) :=
  es.filter (fun p => p.1 != dt) ++ [(dt, v)]

/-- The same edit at store level: the dict assignment replaces the value of
the (present) selected habit and touches no other key. -/
def upsertStore (hs : Habits) (name : List Char) (dt : Date) (v : Bool) : Habits :=
  hs.map fun p => if p.1 = name then (p.1, upsertEntry p.2 dt v) else p

/-- Outcome of the add-habit branch of `app()`. -/
inductive AddResult
  | added
  | duplicate
  | emptyName
deriving DecidableEq

/-- Embedding of the add-habit branch of `app()`:
`if new_habit and new_habit not in habits: habits[new_habit] = []`,
`elif new_habit in habits: warning`, `else: error`; only the first branch
changes the store. -/
def addHabit (hs : Habits) (name : List Char) : Habits × AddResult :=
  if name ≠ [] ∧ ¬ name ∈ hs.map Prod.fst then (hs ++ [(name, [])], AddResult.added)
  else if name ∈ hs.map Prod.fst then (hs, AddResult.duplicate)
  else (hs, AddResult.emptyName)

/-- Embedding of the daily check-in of `app()`: in both checkbox branches the
entry `(today, checked)` is appended only when
`not any(dt == today for dt, _ in records)`. -/
def checkIn (records : List (Date × Bool)) (today : Date) (checked : Bool) : List (Date × Bool) :=
  if records.any (fun p => p.1 == today) then records
  else records ++ [(today, checked)]

/-- Python dict assignment `ds[k] = v` on an insertion-ordered association
list: update in place if the key exists, else append. -/
def dictInsert : List (Nat × Bool) → Nat → Bool → List (Nat × Bool)
  | [], k, v => [(k, v)]
  | (a, b) :: t, k, v => if a = k then (a, v) :: t else (a, b) :: dictInsert t k v

/-- Embedding of the month grid built by `display_calendar`:
`data_dict = (d !-> False for d in range(1, days + 1))` then
`data_dict[dt.day] = completed` for every record with the selected month and
year. The returned association list is the dict, keys in insertion order. -/
def display_calendar (records : List (Date × Bool)) (m y : Nat) : List (Nat × Bool) :=
  records.foldl
    (fun dict p => if p.1.month = m ∧ p.1.year = y then dictInsert dict p.1.day p.2 else dict)
    ((List.range' 1 (get_days_in_month m y)).map fun d => (d, false))

/-! ### Sorting lemmas for the streak computation -/

/-- Descending insertion produces a permutation of consing. -/
theorem insertDesc_perm (p : Int × Bool) (l : List (Int × Bool)) :
    List.Perm (insertDesc p l) (p :: l) := by
  induction l with
  | nil => simp [insertDesc]
  | cons q t ih =>
    by_cases h : q.1 ≤ p.1
    · simp [insertDesc, h]
    · simp only [insertDesc, if_neg h]
      exact (ih.cons q).trans (List.Perm.swap p q t)

/-- The sort of `calculate_streak` permutes its input. -/
theorem sortDesc_perm (l : List (Int × Bool)) : List.Perm (sortDesc l) l := by
  induction l with
  | nil => simp [sortDesc]
  | cons p t ih => exact (insertDesc_perm p (sortDesc t)).trans (ih.cons p)

/-- Descending insertion preserves descending pairwise order. -/
theorem insertDesc_pairwise (p : Int × Bool) (l : List (Int × Bool))
    (hl : l.Pairwise (fun a b => b.1 ≤ a.1)) :
    (insertDesc p l).Pairwise (fun a b => b.1 ≤ a.1) := by
  induction l with
  | nil => simp [insertDesc]
  | cons q t ih =>
    rw [List.pairwise_cons] at hl
    by_cases h : q.1 ≤ p.1
    · simp only [insertDesc, if_pos h]
      refine List.Pairwise.cons ?_ (List.Pairwise.cons hl.1 hl.2)
      intro b hb
      rcases List.mem_cons.mp hb with rfl | hb
      · exact h
      · exact le_trans (hl.1 b hb) h
    · simp only [insertDesc, if_neg h]
      refine List.Pairwise.cons ?_ (ih hl.2)
      intro b hb
      rcases List.mem_cons.mp ((insertDesc_perm p t).mem_iff.mp hb) with rfl | hb
      · exact le_of_lt (not_le.mp h)
      · exact hl.1 b hb

/-- The sort of `calculate_streak` is descending in the date component. -/
theorem sortDesc_pairwise (l : List (Int × Bool)) :
    (sortDesc l).Pairwise (fun a b => b.1 ≤ a.1) := by
  induction l with
  | nil => simp [sortDesc]
  | cons p t ih => exact insertDesc_pairwise p (sortDesc t) ih

/-- In a list whose dates are duplicate-free, the value at a date is unique. -/
theorem fst_nodup_val_unique {l : List (Int × Bool)} {a : Int} {b c : Bool}
    (hn : (l.map Prod.fst).Nodup) (hb : (a, b) ∈ l) (hc : (a, c) ∈ l) : b = c := by
  induction l with
  | nil => cases hb
  | cons p t ih =>
    rw [List.map_cons, List.nodup_cons] at hn
    rcases List.mem_cons.mp hb with hb1 | hb1 <;> rcases List.mem_cons.mp hc with hc1 | hc1
    · exact (Prod.mk.inj (hb1.trans hc1.symm)).2
    · exact absurd (by simpa using List.mem_map_of_mem Prod.fst hc1)
        (by rw [← hb1] at hn; simpa using hn.1)
    · exact absurd (by simpa using List.mem_map_of_mem Prod.fst hb1)
        (by rw [← hc1] at hn; simpa using hn.1)
    · exact ih hn.2 hb1 hc1

/-! ### The streak loop -/

/-- Core specification of the loop of `calculate_streak` on a descending,
duplicate-free list all of whose dates lie at or before `today - s`: if the
dates `today - s, …, today - (s+n-1)` are all present and completed and
`today - (s+n)` is not present-and-completed, the loop returns `s + n`. -/
theorem streakLoop_spec (today : Int) (n : Nat) :
    ∀ (l : List (Int × Bool)) (s : Nat),
      l.Pairwise (fun a b => b.1 ≤ a.1) →
      (l.map Prod.fst).Nodup →
      (∀ p ∈ l, p.1 ≤ today - (s : Int)) →
      (∀ k, k < n → ((today - ((s : Int) + (k : Int)), true) ∈ l)) →
      ((today - ((s : Int) + (n : Int)), true) ∉ l) →
      streakLoop today l s = s + n := by
  induction n with
  | zero =>
    intro l s _ _ _ _ habs
    match l with
    | [] => simp [streakLoop]
    | p :: t =>
      rw [streakLoop, if_neg, Nat.add_zero]
      rintro ⟨h2, h1⟩
      apply habs
      have hp : (today - ((s : Int) + ((0 : Nat) : Int)), true) = p := by
        rcases p with ⟨a, c⟩
        simp only [Prod.mk.injEq]
        constructor
        · simp only [Prod.fst] at h1
          push_cast
          omega
        · exact h2.symm
      rw [hp]
      exact List.mem_cons_self p t
  | succ n ih =>
    intro l s hsort hnodup hle hmem habs
    have h0 : (today - (s : Int), true) ∈ l := by
      simpa using hmem 0 (Nat.succ_pos n)
    match l with
    | [] => cases h0
    | p :: t =>
      have hp1 : p.1 = today - (s : Int) := by
        rcases List.mem_cons.mp h0 with h | h
        · rw [← h]
        · have := (List.pairwise_cons.mp hsort).1 _ h
          have := hle p (List.mem_cons_self p t)
          omega
      have hpt : p = (today - (s : Int), true) := by
        rcases List.mem_cons.mp h0 with h | h
        · exact h.symm
        · exfalso
          rw [List.map_cons, List.nodup_cons] at hnodup
          exact hnodup.1 (by simpa [← hp1] using List.mem_map_of_mem Prod.fst h)
      rw [List.map_cons, List.nodup_cons] at hnodup
      rw [streakLoop, if_pos ⟨by rw [hpt], hp1⟩]
      have htail : ∀ q ∈ t, q.1 ≤ today - ((s : Int) + 1) := by
        intro q hq
        have h1 := hle q (List.mem_cons_of_mem p hq)
        have h2 : q.1 ≠ p.1 := fun h => hnodup.1 (h ▸ List.mem_map_of_mem Prod.fst hq)
        omega
      have := ih t (s + 1) (List.pairwise_cons.mp hsort).2 hnodup.2
        (by intro q hq; have := htail q hq; push_cast; omega)
        (by
          intro k hk
          have hmem' := hmem (k + 1) (by omega)
          rcases List.mem_cons.mp hmem' with h | h
          · exfalso
            have hfst := congrArg Prod.fst h
            simp only [Prod.fst] at hfst
            push_cast at hfst
            omega
          · have heq : today - (((s + 1 : Nat) : Int) + (k : Int)) =
                today - ((s : Int) + ((k + 1 : Nat) : Int)) := by push_cast; ring
            rw [heq]
            exact h)
        (by
          intro h
          apply habs
          have heq : today - ((s : Int) + ((n + 1 : Nat) : Int)) =
              today - (((s + 1 : Nat) : Int) + (n : Int)) := by push_cast; ring
          rw [heq]
          exact List.mem_cons_of_mem p h)
      rw [this]
      omega

/-! ### Claims C2, C3, C5: the streak computation -/

/-- Claim C2, counterexample: the streak computation does not ignore
future-dated entries. On `[(today, done), (today+1, done)]` with `today = 10`
the code returns 0, while removing the future entry yields 1, so the streak
on a collection is not the streak on the collection with future entries
removed. -/
theorem c2_future_not_ignored_cex :
    calculate_streak 10 [((10 : Int), true), ((11 : Int), true)] ≠
      calculate_streak 10 [((10 : Int), true)] := by decide

/-- Claim C2, amended: the walk starts at the latest-dated entry, so an entry
dated strictly after `today` never matches `today` and the loop breaks at
once — any future-dated entry forces streak 0 (rather than being ignored). -/
theorem c2_future_entry_forces_zero (today : Int) (records : List (Int × Bool))
    (h : ∃ p ∈ records, today < p.1) :
    calculate_streak today records = 0 := by
  obtain ⟨p, hp, hlt⟩ := h
  unfold calculate_streak
  cases hs : sortDesc records with
  | nil => simp [streakLoop]
  | cons q t =>
    have hps : p ∈ q :: t := by
      rw [← hs]
      exact (sortDesc_perm records).mem_iff.mpr hp
    have hsorted := sortDesc_pairwise records
    rw [hs] at hsorted
    have hq : today < q.1 := by
      rcases List.mem_cons.mp hps with rfl | hmem
      · exact hlt
      · exact lt_of_lt_of_le hlt ((List.pairwise_cons.mp hsorted).1 p hmem)
    rw [streakLoop, if_neg]
    rintro ⟨h2, h1⟩
    push_cast at h1
    omega

/-- Claim C2, witness for the amended statement at a concrete input. -/
theorem c2_future_entry_forces_zero_wit :
    calculate_streak 5 [((5 : Int), true), ((7 : Int), true)] = 0 :=
  c2_future_entry_forces_zero 5 [((5 : Int), true), ((7 : Int), true)]
    ⟨((7 : Int), true), by decide, by decide⟩

/-- Claim C3, counterexample: with `today = 20` and the entry set
`[(20, done), (22, done)]` (one entry per date, `today` completed, `N = 0`
prior days required, the day one before `today` missing), the claim predicts
streak `N + 1 = 1`, but the future-dated entry makes the code return 0. -/
theorem c3_consecutive_cex :
    calculate_streak 20 [((20 : Int), true), ((22 : Int), true)] = 0 ∧
      calculate_streak 20 [((20 : Int), true), ((22 : Int), true)] ≠ 1 := by decide

/-- Claim C3, amended: provided additionally that no entry is dated after
`today`, an entry set with at most one entry per date in which `today` and
the `N` days immediately preceding it each have a completed entry, while
position `N + 1` has none, yields streak exactly `N + 1`. -/
theorem c3_streak_counts_consecutive (today : Int) (records : List (Int × Bool)) (N : Nat)
    (Hpast : ∀ p ∈ records, p.1 ≤ today)
    (Hnodup : (records.map Prod.fst).Nodup)
    (Hrun : ∀ k, k ≤ N → ((today - (k : Int), true) ∈ records))
    (Hcap : (today - ((N : Int) + 1), true) ∉ records) :
    calculate_streak today records = N + 1 := by
  unfold calculate_streak
  have hperm := sortDesc_perm records
  have := streakLoop_spec today (N + 1) (sortDesc records) 0
    (sortDesc_pairwise records)
    ((hperm.map Prod.fst).nodup_iff.mpr Hnodup)
    (by
      intro p hp
      have := Hpast p (hperm.mem_iff.mp hp)
      push_cast
      omega)
    (by
      intro k hk
      have heq : today - (k : Int) = today - (((0 : Nat) : Int) + (k : Int)) := by
        push_cast; ring
      rw [← heq]
      exact hperm.mem_iff.mpr (Hrun k (by omega)))
    (by
      intro hmem
      apply Hcap
      have heq : today - (((0 : Nat) : Int) + ((N + 1 : Nat) : Int)) =
          today - ((N : Int) + 1) := by push_cast; ring
      rw [← heq]
      exact hperm.mem_iff.mp hmem)
  rw [this]
  omega

/-- Claim C3, witness for the amended statement: `today` and the one
preceding day completed, day two back absent, streak 2. -/
theorem c3_streak_counts_consecutive_wit :
    calculate_streak 100 [((100 : Int), true), ((99 : Int), true)] = 1 + 1 :=
  c3_streak_counts_consecutive 100 [((100 : Int), true), ((99 : Int), true)] 1
    (by decide) (by decide) (by decide) (by decide)

/-- Claim C5: the streak is 0 on an empty entry set; 0 when `today` has no
entry (whatever earlier days hold); and 0 when `today`'s entry (unique per
the one-entry-per-date invariant) is marked not completed. -/
theorem c5_streak_zero_cases (today : Int) (records : List (Int × Bool)) :
    calculate_streak today [] = 0 ∧
      ((∀ p ∈ records, p.1 ≠ today) → calculate_streak today records = 0) ∧
      ((today, false) ∈ records → (records.map Prod.fst).Nodup →
        calculate_streak today records = 0) := by
  refine ⟨rfl, ?_, ?_⟩
  · intro h
    unfold calculate_streak
    cases hs : sortDesc records with
    | nil => simp [streakLoop]
    | cons q t =>
      have hq : q ∈ records := (sortDesc_perm records).mem_iff.mp
        (by rw [hs]; exact List.mem_cons_self q t)
      rw [streakLoop, if_neg]
      rintro ⟨h2, h1⟩
      have := h q hq
      push_cast at h1
      omega
  · intro hmem hnodup
    unfold calculate_streak
    cases hs : sortDesc records with
    | nil => simp [streakLoop]
    | cons q t =>
      have hq : q ∈ records := (sortDesc_perm records).mem_iff.mp
        (by rw [hs]; exact List.mem_cons_self q t)
      rw [streakLoop, if_neg]
      rcases q with ⟨a, b⟩
      rintro ⟨h2, h1⟩
      simp only [Prod.fst, Prod.snd] at h1 h2
      have ha : a = today := by push_cast at h1; omega
      rw [ha] at hq
      have := fst_nodup_val_unique hnodup hq hmem
      rw [this] at h2
      cases h2

/-- Claim C5, witness at concrete inputs for the three zero cases. -/
theorem c5_streak_zero_cases_wit :
    calculate_streak 3 [] = 0 ∧
      calculate_streak 3 [((2 : Int), true), ((1 : Int), true)] = 0 ∧
      calculate_streak 3 [((3 : Int), false), ((2 : Int), true)] = 0 :=
  ⟨(c5_streak_zero_cases 3 []).1,
    (c5_streak_zero_cases 3 [((2 : Int), true), ((1 : Int), true)]).2.1 (by decide),
    (c5_streak_zero_cases 3 [((3 : Int), false), ((2 : Int), true)]).2.2
      (by decide) (by decide)⟩

/-! ### Claims C6, C9, C10: store mutations -/

/-- Applying the calendar's filter-and-append edit twice with the same date
and value equals applying it once. -/
theorem upsertEntry_idem (es : List (Date × Bool)) (dt : Date) (v : Bool) :
    upsertEntry (upsertEntry es dt v) dt v = upsertEntry es dt v := by
  unfold upsertEntry
  rw [List.filter_append]
  simp [List.filter_filter]

/-- The filter-and-append edit preserves duplicate-free dates. -/
theorem upsertEntry_fst_nodup (es : List (Date × Bool)) (dt : Date) (v : Bool)
    (hn : (es.map Prod.fst).Nodup) :
    ((upsertEntry es dt v).map Prod.fst).Nodup := by
  unfold upsertEntry
  rw [List.map_append, List.nodup_append]
  refine ⟨?_, by simp, ?_⟩
  · exact hn.sublist ((es.filter_sublist).map Prod.fst)
  · intro a ha hb
    simp only [List.map_cons, List.map_nil, List.mem_singleton] at hb
    obtain ⟨p, hp, hpa⟩ := List.mem_map.mp ha
    have hf := List.of_mem_filter hp
    rw [bne_iff_ne] at hf
    exact hf (hpa.trans hb)

/-- Store-level form: the dict assignment with an upserted entry list is
idempotent. -/
theorem upsertStore_idem (hs : Habits) (name : List Char) (dt : Date) (v : Bool) :
    upsertStore (upsertStore hs name dt v) name dt v = upsertStore hs name dt v := by
  induction hs with
  | nil => rfl
  | cons p t ih =>
    by_cases hp : p.1 = name
    · simp only [upsertStore, List.map_cons] at ih ⊢
      rw [if_pos hp, if_pos hp, upsertEntry_idem]
      exact congrArg _ ih
    · simp only [upsertStore, List.map_cons] at ih ⊢
      rw [if_neg hp, if_neg hp]
      exact congrArg _ ih

/-- Claim C6: the entry upsert performed by the calendar edit is idempotent —
at store level and at entry-list level — and it replaces any existing entry
for the date, preserving the at-most-one-entry-per-date invariant. -/
theorem c6_upsert_idempotent (hs : Habits) (name : List Char) (dt : Date) (v : Bool)
    (es : List (Date × Bool)) :
    upsertStore (upsertStore hs name dt v) name dt v = upsertStore hs name dt v ∧
      upsertEntry (upsertEntry es dt v) dt v = upsertEntry es dt v ∧
      ((es.map Prod.fst).Nodup → ((upsertEntry es dt v).map Prod.fst).Nodup) :=
  ⟨upsertStore_idem hs name dt v, upsertEntry_idem es dt v, upsertEntry_fst_nodup es dt v⟩

/-- Claim C6, witness at a concrete store: upserting the same cell twice
equals once, and dates stay duplicate-free. -/
theorem c6_upsert_idempotent_wit :
    upsertStore
        (upsertStore [(String.toList "Read", [(⟨2024, 3, 1⟩, true)])]
          (String.toList "Read") ⟨2024, 3, 1⟩ false)
        (String.toList "Read") ⟨2024, 3, 1⟩ false =
      upsertStore [(String.toList "Read", [(⟨2024, 3, 1⟩, true)])]
        (String.toList "Read") ⟨2024, 3, 1⟩ false ∧
      (((upsertEntry [(⟨2024, 3, 1⟩, true), (⟨2024, 3, 2⟩, true)] ⟨2024, 3, 1⟩ false).map
        Prod.fst).Nodup) :=
  ⟨(c6_upsert_idempotent [(String.toList "Read", [(⟨2024, 3, 1⟩, true)])]
      (String.toList "Read") ⟨2024, 3, 1⟩ false []).1,
    (c6_upsert_idempotent [] (String.toList "Read") ⟨2024, 3, 1⟩ false
      [(⟨2024, 3, 1⟩, true), (⟨2024, 3, 2⟩, true)]).2.2 (by decide)⟩

/-- A duplicate-free list counts each of its members exactly once. -/
theorem count_one_of_nodup_mem {α : Type} [BEq α] [LawfulBEq α] {l : List α} {a : α}
    (hn : l.Nodup) (h : a ∈ l) : l.count a = 1 := by
  induction l with
  | nil => cases h
  | cons b t ih =>
    rw [List.nodup_cons] at hn
    rcases List.mem_cons.mp h with rfl | h1
    · rw [List.count_cons_self, List.count_eq_zero.mpr hn.1]
    · have hne : a ≠ b := fun he => hn.1 (he ▸ h1)
      rw [List.count_cons_of_ne hne, ih hn.2 h1]

/-- Appending a fresh key at the end does not change lookups of other keys. -/
theorem lookup_append_singleton_ne (hs : Habits) (name h2 : List Char)
    (es : List (Date × Bool)) (hne : h2 ≠ name) :
    (hs ++ [(name, es)]).lookup h2 = hs.lookup h2 := by
  induction hs with
  | nil =>
    rw [List.nil_append, List.lookup_cons, List.lookup_nil]
    have : (h2 == name) = false := beq_eq_false_iff_ne.mpr hne
    rw [this]
  | cons p t ih =>
    rcases p with ⟨k, v⟩
    rw [List.cons_append, List.lookup_cons, List.lookup_cons]
    cases h2 == k
    · exact ih
    · rfl

/-- Claim C9: adding a habit whose name is already present takes the
duplicate branch and leaves the store untouched — after adding a (fresh,
non-empty) name twice the store holds exactly one habit of that name with
its original (empty) entries, the second call reports a duplicate, and the
entries of every other habit are unchanged. -/
theorem c9_duplicate_add_rejected (hs : Habits) (name : List Char)
    (hname : name ≠ []) (hn : (hs.map Prod.fst).Nodup) :
    (addHabit (addHabit hs name).1 name).1 = (addHabit hs name).1 ∧
      (addHabit (addHabit hs name).1 name).2 = AddResult.duplicate ∧
      ((addHabit hs name).1.map Prod.fst).count name = 1 ∧
      (∀ h2, h2 ≠ name → ((addHabit hs name).1.lookup h2 = hs.lookup h2)) ∧
      (name ∈ hs.map Prod.fst → (addHabit hs name).1.lookup name = hs.lookup name) := by
  by_cases hmem : name ∈ hs.map Prod.fst
  · have h1 : addHabit hs name = (hs, AddResult.duplicate) := by
      unfold addHabit
      rw [if_neg (by simp [hmem]), if_pos hmem]
    rw [h1]
    exact ⟨by rw [h1], by rw [h1], count_one_of_nodup_mem hn hmem, fun _ _ => rfl,
      fun _ => rfl⟩
  · have h1 : addHabit hs name = (hs ++ [(name, [])], AddResult.added) := by
      unfold addHabit
      rw [if_pos ⟨hname, hmem⟩]
    have hmem2 : name ∈ (hs ++ [(name, ([] : List (Date × Bool)))]).map Prod.fst := by
      simp
    have h2 : addHabit (hs ++ [(name, [])]) name = (hs ++ [(name, [])], AddResult.duplicate) := by
      unfold addHabit
      rw [if_neg (by simp [hmem2]), if_pos hmem2]
    rw [h1]
    refine ⟨by rw [h2], by rw [h2], ?_, ?_, fun h => absurd h hmem⟩
    · rw [List.map_append, List.count_append]
      rw [List.count_eq_zero.mpr hmem]
      simp
    · intro h2 hne
      exact lookup_append_singleton_ne hs name h2 [] hne

/-- Claim C9, witness: adding "Read" twice to a store holding "Run". -/
theorem c9_duplicate_add_rejected_wit :
    (addHabit (addHabit [(String.toList "Run", [(⟨2024, 1, 1⟩, true)])]
          (String.toList "Read")).1 (String.toList "Read")).2 = AddResult.duplicate ∧
      ((addHabit [(String.toList "Run", [(⟨2024, 1, 1⟩, true)])]
          (String.toList "Read")).1.map Prod.fst).count (String.toList "Read") = 1 ∧
      (addHabit [(String.toList "Run", [(⟨2024, 1, 1⟩, true)])]
          (String.toList "Read")).1.lookup (String.toList "Run") =
        [(String.toList "Run", [(⟨2024, 1, 1⟩, true)])].lookup (String.toList "Run") :=
  ⟨(c9_duplicate_add_rejected [(String.toList "Run", [(⟨2024, 1, 1⟩, true)])]
      (String.toList "Read") (by decide) (by decide)).2.1,
    (c9_duplicate_add_rejected [(String.toList "Run", [(⟨2024, 1, 1⟩, true)])]
      (String.toList "Read") (by decide) (by decide)).2.2.1,
    (c9_duplicate_add_rejected [(String.toList "Run", [(⟨2024, 1, 1⟩, true)])]
      (String.toList "Read") (by decide) (by decide)).2.2.2.1
      (String.toList "Run") (by decide)⟩

/-- Claim C10: the daily check-in never overrides an existing entry for
today — if any entry dated today is present (with either value), the entry
list is returned unchanged regardless of the checkbox; only when today is
absent does it append `(today, checked)`. -/
theorem c10_checkin_no_override (records : List (Date × Bool)) (today : Date) (checked : Bool) :
    ((∃ c, (today, c) ∈ records) → checkIn records today checked = records) ∧
      ((∀ p ∈ records, p.1 ≠ today) →
        checkIn records today checked = records ++ [(today, checked)]) := by
  constructor
  · rintro ⟨c, hc⟩
    have h : records.any (fun p => p.1 == today) = true :=
      List.any_eq_true.mpr ⟨(today, c), hc, by simp⟩
    simp [checkIn, h]
  · intro h
    have hfalse : records.any (fun p => p.1 == today) = false := by
      rw [List.any_eq_false]
      intro p hp
      simpa using h p hp
    simp [checkIn, hfalse]

/-- Claim C10, witness: a today-entry marked not-completed survives a
"Mark as done" check-in unchanged, and an absent today is appended. -/
theorem c10_checkin_no_override_wit :
    checkIn [(⟨2024, 5, 1⟩, false)] ⟨2024, 5, 1⟩ true = [(⟨2024, 5, 1⟩, false)] ∧
      checkIn [(⟨2024, 5, 1⟩, false)] ⟨2024, 5, 2⟩ true =
        [(⟨2024, 5, 1⟩, false)] ++ [(⟨2024, 5, 2⟩, true)] :=
  ⟨(c10_checkin_no_override [(⟨2024, 5, 1⟩, false)] ⟨2024, 5, 1⟩ true).1
      ⟨false, by decide⟩,
    (c10_checkin_no_override [(⟨2024, 5, 1⟩, false)] ⟨2024, 5, 2⟩ true).2 (by decide)⟩

/-! ### Date formatting and parsing -/

/-- Digit characters are digits. -/
theorem isDigit_digitChar : ∀ n < 10, (digitChar n).isDigit = true := by decide

/-- Value of a digit character. -/
theorem charVal_digitChar : ∀ n < 10, charVal (digitChar n) = n := by decide

/-- A slash is not a digit. -/
theorem slash_not_digit : ('/' : Char).isDigit = false := by decide

/-- Every month length the code produces is at most 31. -/
theorem days_le_31 (m y : Nat) : get_days_in_month m y ≤ 31 := by
  unfold get_days_in_month
  split
  · split <;> omega
  · split <;> omega

/-- Two-digit numerals decode to their value. -/
theorem digitsVal_pad2 (n : Nat) (h : n < 100) : digitsVal (pad2 n) = n := by
  unfold digitsVal pad2
  rw [List.foldl_cons, List.foldl_cons, List.foldl_nil]
  rw [charVal_digitChar _ (by omega), charVal_digitChar _ (by omega)]
  omega

/-- Four-digit numerals decode to their value. -/
theorem digitsVal_pad4 (n : Nat) (h : n < 10000) : digitsVal (pad4 n) = n := by
  unfold digitsVal pad4
  rw [List.foldl_cons, List.foldl_cons, List.foldl_cons, List.foldl_cons, List.foldl_nil]
  rw [charVal_digitChar _ (by omega), charVal_digitChar _ (by omega),
    charVal_digitChar _ (by omega), charVal_digitChar _ (by omega)]
  omega

/-- Splitting a two-digit numeral followed by a slash. -/
theorem splitSlash_pad2 (n : Nat) (r : List Char) (h : n < 100) :
    splitSlash (pad2 n ++ ('/' :: r)) = some (pad2 n, r) := by
  have h1 : (digitChar (n / 10)).isDigit = true := isDigit_digitChar _ (by omega)
  have h2 : (digitChar (n % 10)).isDigit = true := isDigit_digitChar _ (by omega)
  unfold splitSlash pad2
  simp only [List.cons_append, List.nil_append, List.takeWhile_cons, List.dropWhile_cons, h1, h2,
    slash_not_digit, if_true, if_false, Bool.false_eq_true, reduceIte]

/-- A four-digit numeral is consumed whole by the digit scan. -/
theorem scan_pad4 (n : Nat) (h : n < 10000) :
    (pad4 n).takeWhile Char.isDigit = pad4 n ∧ (pad4 n).dropWhile Char.isDigit = [] := by
  have h1 : (digitChar (n / 1000)).isDigit = true := isDigit_digitChar _ (by omega)
  have h2 : (digitChar (n / 100 % 10)).isDigit = true := isDigit_digitChar _ (by omega)
  have h3 : (digitChar (n / 10 % 10)).isDigit = true := isDigit_digitChar _ (by omega)
  have h4 : (digitChar (n % 10)).isDigit = true := isDigit_digitChar _ (by omega)
  unfold pad4
  constructor <;>
    simp only [List.takeWhile_cons, List.dropWhile_cons, List.takeWhile_nil, List.dropWhile_nil,
      h1, h2, h3, h4, if_true, reduceIte]

/-- Parsing inverts formatting on every valid calendar date. -/
theorem parseDate_formatDate (d : Date) (h : d.Valid) : parseDate (formatDate d) = some d := by
  obtain ⟨hy1, hy2, hm1, hm2, hd1, hd2⟩ := h
  have hd31 : d.day ≤ 31 := le_trans hd2 (days_le_31 d.month d.year)
  have hday : d.day < 100 := by omega
  have hmon : d.month < 100 := by omega
  have hyear : d.year < 10000 := by omega
  unfold formatDate parseDate
  rw [splitSlash_pad2 d.day _ hday]
  simp only [Option.some_bind]
  rw [splitSlash_pad2 d.month _ hmon]
  simp only [Option.some_bind, parseYearSeg]
  rw [(scan_pad4 d.year hyear).1, (scan_pad4 d.year hyear).2]
  rw [if_pos]
  · rw [digitsVal_pad2 d.day hday, digitsVal_pad2 d.month hmon, digitsVal_pad4 d.year hyear]
  · refine ⟨rfl, by simp [pad2], by simp [pad2], by simp [pad2], by simp [pad2], by simp [pad4],
      ?_, ?_, ?_, ?_, ?_⟩ <;>
      simp only [digitsVal_pad2 d.day hday, digitsVal_pad2 d.month hmon,
        digitsVal_pad4 d.year hyear] <;>
      omega

/-! ### Claims C1, C4: loading and saving rows -/

/-- The serialized completion string parses back to the original boolean. -/
theorem boolStr_beq (b : Bool) : (boolStr b == String.toList "True") = b := by
  cases b <;> decide

/-- Unfolding equation of the row loop on a non-empty row list. -/
theorem loadAux_cons (r : Row) (rest : List Row) (hs : Habits) :
    loadAux (r :: rest) hs =
      if r.habit = [] then loadAux rest hs
      else
        match parseDate r.dateStr with
        | none => none
        | some d =>
          loadAux rest (addEntry hs r.habit (d, r.completedStr == String.toList "True")) :=
  rfl

/-- The row loop distributes over list append, failing as soon as either part
fails. -/
theorem loadAux_append (r1 r2 : List Row) (hs : Habits) :
    loadAux (r1 ++ r2) hs = (loadAux r1 hs).bind (fun hs2 => loadAux r2 hs2) := by
  induction r1 generalizing hs with
  | nil => rfl
  | cons r rest ih =>
    rw [List.cons_append, loadAux_cons, loadAux_cons]
    by_cases h : r.habit = []
    · rw [if_pos h, if_pos h]
      exact ih hs
    · rw [if_neg h, if_neg h]
      cases parseDate r.dateStr
      · rfl
      · exact ih _

/-- Loading the serialized rows of one habit's entries folds them back into
the accumulator with `addEntry`. -/
theorem loadAux_habit_rows (h0 : List Char) (es : List (Date × Bool)) (hs : Habits)
    (hne : h0 ≠ []) (hval : ∀ e ∈ es, e.1.Valid) :
    loadAux (es.map (rowOf h0)) hs = some (es.foldl (fun a e => addEntry a h0 e) hs) := by
  induction es generalizing hs with
  | nil => rfl
  | cons e rest ih =>
    rw [List.map_cons, List.foldl_cons]
    unfold loadAux
    simp only [rowOf]
    rw [if_neg hne, parseDate_formatDate e.1 (hval e (List.mem_cons_self e rest)),
      boolStr_beq e.2]
    exact ih _ (fun e2 he2 => hval e2 (List.mem_cons_of_mem e he2))

/-- Inserting an entry under a key absent from the dict appends the key. -/
theorem addEntry_fresh (hs : Habits) (h0 : List Char) (e : Date × Bool)
    (hfresh : ¬ h0 ∈ hs.map Prod.fst) :
    addEntry hs h0 e = hs ++ [(h0, [e])] := by
  induction hs with
  | nil => rfl
  | cons p t ih =>
    rcases p with ⟨k, es⟩
    have hk : k ≠ h0 := fun hkk => hfresh (by simp [hkk])
    unfold addEntry
    rw [if_neg hk, ih (fun hm => hfresh (by simp [hm]))]
    rfl

/-- Inserting an entry under the last key extends that key's list. -/
theorem addEntry_append_self (hs : Habits) (h0 : List Char) (acc : List (Date × Bool))
    (e : Date × Bool) (hfresh : ¬ h0 ∈ hs.map Prod.fst) :
    addEntry (hs ++ [(h0, acc)]) h0 e = hs ++ [(h0, acc ++ [e])] := by
  induction hs with
  | nil => simp [addEntry]
  | cons p t ih =>
    rcases p with ⟨k, es⟩
    have hk : k ≠ h0 := fun hkk => hfresh (by simp [hkk])
    rw [List.cons_append, List.cons_append]
    unfold addEntry
    rw [if_neg hk, ih (fun hm => hfresh (by simp [hm]))]

/-- Folding a run of entries for one fresh key appends that key with the run. -/
theorem foldl_addEntry_known (hs : Habits) (h0 : List Char) (acc es : List (Date × Bool))
    (hfresh : ¬ h0 ∈ hs.map Prod.fst) :
    es.foldl (fun a e => addEntry a h0 e) (hs ++ [(h0, acc)]) = hs ++ [(h0, acc ++ es)] := by
  induction es generalizing acc with
  | nil => simp
  | cons e rest ih =>
    rw [List.foldl_cons, addEntry_append_self hs h0 acc e hfresh, ih (acc ++ [e])]
    simp

/-- Folding a non-empty run of entries for a fresh key appends the key with
exactly that run. -/
theorem foldl_addEntry (hs : Habits) (h0 : List Char) (e : Date × Bool)
    (es : List (Date × Bool)) (hfresh : ¬ h0 ∈ hs.map Prod.fst) :
    (e :: es).foldl (fun a e2 => addEntry a h0 e2) hs = hs ++ [(h0, e :: es)] := by
  rw [List.foldl_cons, addEntry_fresh hs h0 e hfresh, foldl_addEntry_known hs h0 [e] es hfresh]
  rfl

/-- Loading the rows serialized from a well-formed store rebuilds the store
behind any accumulator with disjoint keys. -/
theorem loadAux_save (hs : Habits) :
    ∀ acc : Habits,
      (∀ p ∈ hs, p.1 ≠ [] ∧ p.2 ≠ [] ∧ ∀ e ∈ p.2, e.1.Valid) →
      (∀ p ∈ hs, ¬ p.1 ∈ acc.map Prod.fst) →
      (hs.map Prod.fst).Nodup →
      loadAux (save_data_db hs) acc = some (acc ++ hs) := by
  induction hs with
  | nil =>
    intro acc _ _ _
    simp [save_data_db, loadAux]
  | cons p t ih =>
    intro acc H1 H2 H3
    rcases p with ⟨h0, es⟩
    obtain ⟨hne, hnil, hval⟩ := H1 _ (List.mem_cons_self _ _)
    rw [List.map_cons, List.nodup_cons] at H3
    rw [save_data_db, loadAux_append, loadAux_habit_rows h0 es acc hne hval,
      Option.some_bind]
    have hfresh : ¬ h0 ∈ acc.map Prod.fst := H2 _ (List.mem_cons_self _ _)
    match es, hnil with
    | e :: rest, _ =>
      rw [foldl_addEntry acc h0 e rest hfresh]
      rw [ih (acc ++ [(h0, e :: rest)])
        (fun q hq => H1 q (List.mem_cons_of_mem _ hq))
        (by
          intro q hq
          rw [List.map_append, List.mem_append]
          rintro (hin | hin)
          · exact H2 q (List.mem_cons_of_mem _ hq) hin
          · simp only [List.map_cons, List.map_nil, List.mem_singleton] at hin
            exact H3.1 (List.mem_map.mpr ⟨q, hq, hin⟩)
          )
        H3.2]
      simp

/-- Claim C4, counterexample: a store holding the habit "Read" with no
entries serializes to no rows, so parsing back yields a store without the
habit — the round trip does not preserve the set of habit names. -/
theorem c4_roundtrip_cex :
    load_data_db (save_data_db [(String.toList "Read", [])]) ≠
      [(String.toList "Read", ([] : List (Date × Bool)))] := by decide

/-- Claim C4, amended: for a store with non-empty, pairwise-distinct habit
names, valid dates, and at least one entry per habit, serializing to rows
(DD/MM/YYYY dates, literal "True"/"False") and parsing back yields exactly
the original store. -/
theorem c4_save_load_roundtrip (hs : Habits)
    (H1 : ∀ p ∈ hs, p.1 ≠ [] ∧ p.2 ≠ [] ∧ ∀ e ∈ p.2, e.1.Valid)
    (H2 : (hs.map Prod.fst).Nodup) :
    load_data_db (save_data_db hs) = hs := by
  unfold load_data_db
  rw [loadAux_save hs [] H1 (by simp) H2]
  simp

/-- Claim C4, witness: a two-habit store with mixed booleans round-trips. -/
theorem c4_save_load_roundtrip_wit :
    load_data_db (save_data_db
        [(String.toList "Read", [(⟨2024, 3, 1⟩, true), (⟨2024, 3, 2⟩, false)]),
          (String.toList "Run", [(⟨2023, 2, 28⟩, true)])]) =
      [(String.toList "Read", [(⟨2024, 3, 1⟩, true), (⟨2024, 3, 2⟩, false)]),
        (String.toList "Run", [(⟨2023, 2, 28⟩, true)])] :=
  c4_save_load_roundtrip
    [(String.toList "Read", [(⟨2024, 3, 1⟩, true), (⟨2024, 3, 2⟩, false)]),
      (String.toList "Run", [(⟨2023, 2, 28⟩, true)])]
    (by decide) (by decide)

/-- A row with a non-empty habit and an unparsable date fails the whole row
loop, whatever has been accumulated. -/
theorem loadAux_malformed (rows : List Row) :
    ∀ acc : Habits, (∃ r ∈ rows, r.habit ≠ [] ∧ parseDate r.dateStr = none) →
      loadAux rows acc = none := by
  induction rows with
  | nil =>
    rintro acc ⟨r, hr, _⟩
    cases hr
  | cons r0 rest ih =>
    rintro acc ⟨r, hr, hne, hbad⟩
    unfold loadAux
    by_cases h0 : r0.habit = []
    · rw [if_pos h0]
      apply ih
      rcases List.mem_cons.mp hr with rfl | hr2
      · exact absurd h0 hne
      · exact ⟨r, hr2, hne, hbad⟩
    · rw [if_neg h0]
      rcases List.mem_cons.mp hr with rfl | hr2
      · rw [hbad]
      · cases hp : parseDate r0.dateStr
        · rfl
        · exact ih _ ⟨r, hr2, hne, hbad⟩

/-- Claim C1, counterexample: five rows for habit "Read", four valid and one
with the malformed date string "2024-03-05". The load returns the empty
store — the four valid entries are *not* retained, contrary to the claimed
skip-and-continue behavior. -/
theorem c1_malformed_row_cex :
    load_data_db
        [⟨String.toList "01/03/2024", String.toList "Read", String.toList "True"⟩,
          ⟨String.toList "02/03/2024", String.toList "Read", String.toList "True"⟩,
          ⟨String.toList "2024-03-05", String.toList "Read", String.toList "True"⟩,
          ⟨String.toList "03/03/2024", String.toList "Read", String.toList "False"⟩,
          ⟨String.toList "04/03/2024", String.toList "Read", String.toList "True"⟩] = [] ∧
      (load_data_db
        [⟨String.toList "01/03/2024", String.toList "Read", String.toList "True"⟩,
          ⟨String.toList "02/03/2024", String.toList "Read", String.toList "True"⟩,
          ⟨String.toList "2024-03-05", String.toList "Read", String.toList "True"⟩,
          ⟨String.toList "03/03/2024", String.toList "Read", String.toList "False"⟩,
          ⟨String.toList "04/03/2024", String.toList "Read", String.toList "True"⟩]).lookup
        (String.toList "Read") = none := by decide

/-- Claim C1, amended: rows with an empty habit name are skipped and loading
continues, but a malformed date string in any row with a non-empty habit
aborts the whole load — the call then returns the empty store (no exception
escapes, but none of the valid rows' entries are kept). -/
theorem c1_malformed_aborts_load (rows : List Row) :
    ((∃ r ∈ rows, r.habit ≠ [] ∧ parseDate r.dateStr = none) → load_data_db rows = []) ∧
      (∀ r rest, r.habit = [] → load_data_db (r :: rest) = load_data_db rest) := by
  constructor
  · intro hbad
    unfold load_data_db
    rw [loadAux_malformed rows [] hbad]
  · intro r rest hr
    unfold load_data_db
    rw [loadAux_cons, if_pos hr]

/-- Claim C1, witness: a malformed first row empties the load even with a
valid row behind it, and an empty-habit row is skipped. -/
theorem c1_malformed_aborts_load_wit :
    load_data_db
        [⟨String.toList "05/13/2024", String.toList "Gym", String.toList "True"⟩,
          ⟨String.toList "05/12/2024", String.toList "Gym", String.toList "True"⟩] = [] ∧
      load_data_db
          [⟨String.toList "05/12/2024", [], String.toList "True"⟩,
            ⟨String.toList "05/12/2024", String.toList "Gym", String.toList "True"⟩] =
        load_data_db [⟨String.toList "05/12/2024", String.toList "Gym", String.toList "True"⟩] :=
  ⟨(c1_malformed_aborts_load
      [⟨String.toList "05/13/2024", String.toList "Gym", String.toList "True"⟩,
        ⟨String.toList "05/12/2024", String.toList "Gym", String.toList "True"⟩]).1
      ⟨⟨String.toList "05/13/2024", String.toList "Gym", String.toList "True"⟩,
        by decide, by decide, by decide⟩,
    (c1_malformed_aborts_load []).2
      ⟨String.toList "05/12/2024", [], String.toList "True"⟩
      [⟨String.toList "05/12/2024", String.toList "Gym", String.toList "True"⟩] rfl⟩

/-! ### Claims C7, C8: the month grid -/

/-- Dict assignment to an existing key does not change the key sequence. -/
theorem dictInsert_keys_mem (ds : List (Nat × Bool)) (k : Nat) (v : Bool)
    (h : k ∈ ds.map Prod.fst) :
    (dictInsert ds k v).map Prod.fst = ds.map Prod.fst := by
  induction ds with
  | nil => simp at h
  | cons p t ih =>
    rcases p with ⟨a, b⟩
    unfold dictInsert
    by_cases ha : a = k
    · rw [if_pos ha]
      simp
    · rw [if_neg ha]
      rw [List.map_cons] at h
      have h2 : k ∈ t.map Prod.fst := by
        rcases List.mem_cons.mp h with h1 | h1
        · exact absurd h1.symm ha
        · exact h1
      simp only [List.map_cons]
      rw [ih h2]

/-- Dict assignment makes the assigned key look up the assigned value. -/
theorem lookup_dictInsert_self (ds : List (Nat × Bool)) (k : Nat) (v : Bool) :
    (dictInsert ds k v).lookup k = some v := by
  induction ds with
  | nil => simp [dictInsert, List.lookup_cons]
  | cons p t ih =>
    rcases p with ⟨a, b⟩
    unfold dictInsert
    by_cases ha : a = k
    · subst ha
      simp [List.lookup_cons]
    · rw [if_neg ha]
      have hfalse : (k == a) = false := beq_eq_false_iff_ne.mpr (fun hk => ha hk.symm)
      simp [List.lookup_cons, hfalse, ih]

/-- Dict assignment leaves every other key's lookup unchanged. -/
theorem lookup_dictInsert_ne (ds : List (Nat × Bool)) (k a0 : Nat) (v : Bool)
    (hne : a0 ≠ k) :
    (dictInsert ds k v).lookup a0 = ds.lookup a0 := by
  induction ds with
  | nil =>
    have hfalse : (a0 == k) = false := beq_eq_false_iff_ne.mpr hne
    simp [dictInsert, List.lookup_cons, hfalse]
  | cons p t ih =>
    rcases p with ⟨a, b⟩
    unfold dictInsert
    by_cases ha : a = k
    · subst ha
      have hfalse : (a0 == a) = false := beq_eq_false_iff_ne.mpr hne
      simp [List.lookup_cons, hfalse]
    · rw [if_neg ha]
      rw [List.lookup_cons, List.lookup_cons]
      cases a0 == a
      · exact ih
      · rfl

/-- Looking up any day of the initial all-false grid yields `some false`. -/
theorem lookup_range_map (s n k : Nat) (h1 : s ≤ k) (h2 : k < s + n) :
    ((List.range' s n).map fun d => (d, false)).lookup k = some false := by
  induction n generalizing s with
  | zero => omega
  | succ n ih =>
    rw [List.range'_succ, List.map_cons]
    by_cases hk : k = s
    · subst hk
      simp [List.lookup_cons]
    · have hfalse : (k == s) = false := beq_eq_false_iff_ne.mpr hk
      rw [List.lookup_cons]
      rw [hfalse]
      exact ih (s + 1) (by omega) (by omega)

/-- The month-grid fold keeps the key sequence `1, …, days` when every
record carries a valid date. -/
theorem grid_fold_keys (m y : Nat) (records : List (Date × Bool)) :
    ∀ dict : List (Nat × Bool),
      (∀ p ∈ records, p.1.Valid) →
      dict.map Prod.fst = List.range' 1 (get_days_in_month m y) →
      ((records.foldl
          (fun dict p =>
            if p.1.month = m ∧ p.1.year = y then dictInsert dict p.1.day p.2 else dict)
          dict).map Prod.fst) = List.range' 1 (get_days_in_month m y) := by
  induction records with
  | nil =>
    intro dict _ h
    simpa using h
  | cons p t ih =>
    intro dict hv hkeys
    simp only [List.foldl_cons]
    by_cases hm : p.1.month = m ∧ p.1.year = y
    · rw [if_pos hm]
      apply ih _ (fun q hq => hv q (List.mem_cons_of_mem p hq))
      rw [dictInsert_keys_mem]
      · exact hkeys
      · rw [hkeys]
        obtain ⟨_, _, _, _, hd1, hd2⟩ := hv p (List.mem_cons_self p t)
        rw [hm.1, hm.2] at hd2
        exact List.mem_range'.mpr ⟨p.1.day - 1, by omega, by omega⟩
    · rw [if_neg hm]
      exact ih dict (fun q hq => hv q (List.mem_cons_of_mem p hq)) hkeys

/-- When no record carries the looked-up date, the fold leaves that day's
cell untouched. -/
theorem grid_fold_no_match (m y day : Nat) (records : List (Date × Bool)) :
    (∀ p ∈ records, p.1 ≠ (⟨y, m, day⟩ : Date)) →
    ∀ dict : List (Nat × Bool),
      ((records.foldl
          (fun dict p =>
            if p.1.month = m ∧ p.1.year = y then dictInsert dict p.1.day p.2 else dict)
          dict).lookup day) = dict.lookup day := by
  induction records with
  | nil => intro _ dict; rfl
  | cons p t ih =>
    intro hno dict
    simp only [List.foldl_cons]
    by_cases hm : p.1.month = m ∧ p.1.year = y
    · rw [if_pos hm]
      by_cases hd : p.1.day = day
      · exfalso
        apply hno p (List.mem_cons_self p t)
        rcases p with ⟨⟨py, pm, pd⟩, pb⟩
        obtain ⟨hm1, hm2⟩ := hm
        simp only at hm1 hm2 hd
        rw [Date.mk.injEq]
        exact ⟨hm2, hm1, hd⟩
      · rw [ih (fun q hq => hno q (List.mem_cons_of_mem p hq)) (dictInsert dict p.1.day p.2)]
        exact lookup_dictInsert_ne dict p.1.day day p.2 (fun h => hd h.symm)
    · rw [if_neg hm]
      exact ih (fun q hq => hno q (List.mem_cons_of_mem p hq)) dict

/-- When one record carries the looked-up date (dates duplicate-free), the
fold sets that day's cell to the record's boolean. -/
theorem grid_fold_match (m y day : Nat) (c : Bool) (records : List (Date × Bool)) :
    ((⟨y, m, day⟩ : Date), c) ∈ records →
    (records.map Prod.fst).Nodup →
    ∀ dict : List (Nat × Bool),
      ((records.foldl
          (fun dict p =>
            if p.1.month = m ∧ p.1.year = y then dictInsert dict p.1.day p.2 else dict)
          dict).lookup day) = some c := by
  induction records with
  | nil =>
    rintro h
    cases h
  | cons p t ih =>
    intro hmem hnodup dict
    rw [List.map_cons, List.nodup_cons] at hnodup
    simp only [List.foldl_cons]
    rcases List.mem_cons.mp hmem with heq | hmem2
    · rw [← heq] at hnodup ⊢
      rw [if_pos ⟨rfl, rfl⟩]
      rw [grid_fold_no_match m y day t ?_ _]
      · exact lookup_dictInsert_self dict day c
      · intro q hq hqD
        exact hnodup.1 (by simpa using List.mem_map.mpr ⟨q, hq, hqD⟩)
    · by_cases hm : p.1.month = m ∧ p.1.year = y
      · rw [if_pos hm]
        exact ih hmem2 hnodup.2 _
      · rw [if_neg hm]
        exact ih hmem2 hnodup.2 dict

/-- Claim C7: for every month 1–12 and year 2000–2100 the month grid has
exactly `get_days_in_month m y` day entries; the month length follows the
Gregorian leap-year rule, giving 29 days for February 2024 and 28 for
February 2023. -/
theorem c7_grid_days (m y : Nat) (records : List (Date × Bool))
    (_hm : 1 ≤ m ∧ m ≤ 12) (_hy : 2000 ≤ y ∧ y ≤ 2100)
    (hv : ∀ p ∈ records, p.1.Valid) :
    (display_calendar records m y).length = get_days_in_month m y ∧
      get_days_in_month 2 2024 = 29 ∧ get_days_in_month 2 2023 = 28 ∧
      (∀ y2, isleap y2 = true ↔ (y2 % 4 = 0 ∧ (y2 % 100 ≠ 0 ∨ y2 % 400 = 0))) := by
  refine ⟨?_, by decide, by decide, ?_⟩
  · have hkeys := grid_fold_keys m y records
      ((List.range' 1 (get_days_in_month m y)).map fun d => (d, false)) hv
      (by simp [List.map_map, Function.comp_def])
    have hlen := congrArg List.length hkeys
    rw [List.length_map, List.length_range'] at hlen
    exact hlen
  · intro y2
    unfold isleap
    simp [Bool.and_eq_true, Bool.or_eq_true, beq_iff_eq, bne_iff_ne]

/-- Claim C7, witness: February 2024 yields a 29-entry grid. -/
theorem c7_grid_days_wit :
    (display_calendar [(⟨2024, 2, 5⟩, true)] 2 2024).length = get_days_in_month 2 2024 ∧
      get_days_in_month 2 2024 = 29 ∧ get_days_in_month 2 2023 = 28 :=
  ⟨(c7_grid_days 2 2024 [(⟨2024, 2, 5⟩, true)] (by decide) (by decide) (by decide)).1,
    (c7_grid_days 2 2024 [(⟨2024, 2, 5⟩, true)] (by decide) (by decide) (by decide)).2.1,
    (c7_grid_days 2 2024 [(⟨2024, 2, 5⟩, true)] (by decide) (by decide) (by decide)).2.2.1⟩

/-- Claim C8: for every day of the target month, the grid cell carries the
boolean of the habit's entry for that exact date when one exists, and
`false` when none exists — every day has one of the two states, never a
third. -/
theorem c8_grid_cell (records : List (Date × Bool)) (m y day : Nat)
    (hnodup : (records.map Prod.fst).Nodup)
    (hday : 1 ≤ day ∧ day ≤ get_days_in_month m y) :
    (∀ c, ((⟨y, m, day⟩ : Date), c) ∈ records →
        (display_calendar records m y).lookup day = some c) ∧
      ((∀ c, ((⟨y, m, day⟩ : Date), c) ∉ records) →
        (display_calendar records m y).lookup day = some false) := by
  constructor
  · intro c hc
    unfold display_calendar
    exact grid_fold_match m y day c records hc hnodup _
  · intro habs
    unfold display_calendar
    rw [grid_fold_no_match m y day records ?_ _]
    · exact lookup_range_map 1 (get_days_in_month m y) day hday.1 (by omega)
    · intro p hp hpD
      rcases p with ⟨pd, pb⟩
      simp only at hpD
      exact habs pb (hpD ▸ hp)

/-- Claim C8, witness: in February 2024, day 5 shows its recorded boolean
and day 6 defaults to false. -/
theorem c8_grid_cell_wit :
    (display_calendar [(⟨2024, 2, 5⟩, true)] 2 2024).lookup 5 = some true ∧
      (display_calendar [(⟨2024, 2, 5⟩, true)] 2 2024).lookup 6 = some false :=
  ⟨(c8_grid_cell [(⟨2024, 2, 5⟩, true)] 2 2024 5 (by decide) (by decide)).1 true (by decide),
    (c8_grid_cell [(⟨2024, 2, 5⟩, true)] 2 2024 6 (by decide) (by decide)).2 (by decide)⟩

end HabitStreak
